import Mathlib

/-!
Shallow embedding of the wilt::NArray strided-array library.

The repository ships two copies of the header:
  * `src/wilt-narray/narray.hpp` (the current, 2019 header) — embedded below with
    unprefixed names (`View`, `slice_`, `skip`, `align`, …);
  * `wilt-narray/narray.hpp` (the legacy, 2018 header) — embedded with `L`-prefixed
    names (`LView`, `Lskip_`, `LisAligned`, …) where the two copies differ.

`pos_t` (`std::ptrdiff_t`) is modelled as `Int`.  C++ `/` on `pos_t` truncates
toward zero, which is `Int.tdiv`; every division below is applied to non-negative
operands, where all conventions agree.  A buffer pointer is modelled as the offset
(in elements) from the start of the allocation, so `data_.get() + k` becomes
`· + k` on the stored offset.  Exceptions are modelled with `Except Err`.
-/

inductive Err where
  | outOfRange
  | invalidArgument
  | domainError
  | runtimeError
deriving DecidableEq, Repr

/-- Embeds `Point<N>::swapped(i, j)` — the coordinate-tuple type lives in `util.hpp`,
which is not part of the repository snapshot.  Modelled from the spec:
"removal/insertion/swap of axes" (§3), `swapped(i,j)` exchanges the entries at
`i` and `j`. -/
def swapped (l : List Int) (i j : Nat) : List Int :=
  (l.set i (l.getD j 0)).set j (l.getD i 0)

/-- Embeds `detail::step(sizes)` (src/wilt-narray/narray.hpp:633-643): canonical
row-major steps, `ret[N-1] = 1`, `ret[i-1] = ret[i] * sizes[i]`. -/
def stepList : List Int → List Int
  | [] => []
  | [_] => [1]
  | _ :: y :: rest =>
      let s := stepList (y :: rest)
      (s.headD 1 * y) :: s

/-- Embeds `detail::size(sizes)` (src/wilt-narray/narray.hpp:653-660):
`ret = sizes[0]; ret *= sizes[i]`. -/
def sizeProd : List Int → Int
  | [] => 0
  | x :: rest => rest.foldl (· * ·) x

/-- Embeds `detail::validSize` (src/wilt-narray/narray.hpp:662-669): false iff some
entry is `<= 0`. -/
def validSize (l : List Int) : Bool :=
  l.all (fun x => decide (0 < x))

/-- Embeds `NArray<T,N>` of the current header (src/wilt-narray/narray.hpp:100-125):
`data_` (shared pointer, here `none` = empty, `some b` = base offset `b`),
`sizes_`, `steps_`. -/
structure View where
  data : Option Int
  sizes : List Int
  steps : List Int
deriving DecidableEq, Repr

/-- Embeds `NArray<T,N>::NArray(const Point<N>& size)`
(src/wilt-narray/narray.hpp:842-854): throws `invalid_argument` unless
`validSize(size)`, otherwise allocates a fresh buffer (base offset 0) with
canonical steps.  The `val` / `ptr` / `list` / `gen` overloads perform the same
check and produce the same descriptor. -/
def mkNArray (size : List Int) : Except Err View :=
  if validSize size then .ok ⟨some 0, size, stepList size⟩
  else .error .invalidArgument

def View.empty (v : View) : Bool :=
  v.data.isNone

/-- Embeds `NArray::slice_` (src/wilt-narray/narray.hpp:1349-1357). -/
def slice_ (v : View) (dim : Nat) (n : Int) : View :=
  ⟨v.data.map (· + v.steps.getD dim 0 * n),
   v.sizes.eraseIdx dim,
   v.steps.eraseIdx dim⟩

/-- Embeds `NArray::operator[]` (src/wilt-narray/narray.hpp:1287-1294). -/
def opIndex (v : View) (n : Int) : Except Err View :=
  if n < 0 ∨ n ≥ v.sizes.getD 0 0 then .error .outOfRange
  else .ok (slice_ v 0 n)

/-- Embeds `NArray::slice` (src/wilt-narray/narray.hpp:1296-1305); named `sliceOp`
here to avoid clashing with a library name. -/
def sliceOp (v : View) (dim : Nat) (n : Int) : Except Err View :=
  if dim ≥ v.sizes.length then .error .outOfRange
  else if n ≥ v.sizes.getD dim 0 ∨ n < 0 then .error .outOfRange
  else .ok (slice_ v dim n)

/-- Embeds `NArray::range_` (src/wilt-narray/narray.hpp:1422-1430). -/
def range_ (v : View) (dim : Nat) (start length : Int) : View :=
  ⟨v.data.map (· + v.steps.getD dim 0 * start),
   v.sizes.set dim length,
   v.steps⟩

/-- Embeds `NArray::range` (src/wilt-narray/narray.hpp:1359-1370). -/
def range (v : View) (dim : Nat) (start length : Int) : Except Err View :=
  if dim ≥ v.sizes.length then .error .outOfRange
  else if start < 0 ∨ start ≥ v.sizes.getD dim 0 then .error .outOfRange
  else if length ≤ 0 ∨ start + length > v.sizes.getD dim 0 then .error .outOfRange
  else .ok (range_ v dim start length)

/-- Embeds `NArray::rangeX` (src/wilt-narray/narray.hpp:1372-1381): same checks with
the axis fixed to 0. -/
def rangeX (v : View) (start length : Int) : Except Err View :=
  if start < 0 ∨ start ≥ v.sizes.getD 0 0 then .error .outOfRange
  else if length ≤ 0 ∨ start + length > v.sizes.getD 0 0 then .error .outOfRange
  else .ok (range_ v 0 start length)

/-- Embeds `NArray::flip_` (src/wilt-narray/narray.hpp:1471-1479). -/
def flip_ (v : View) (dim : Nat) : View :=
  ⟨v.data.map (· + v.steps.getD dim 0 * (v.sizes.getD dim 0 - 1)),
   v.sizes,
   v.steps.set dim (-(v.steps.getD dim 0))⟩

/-- Embeds `NArray::flip` (src/wilt-narray/narray.hpp:1432-1439); named `flipOp` here
to avoid clashing with a library name. -/
def flipOp (v : View) (dim : Nat) : Except Err View :=
  if dim ≥ v.sizes.length then .error .outOfRange
  else .ok (flip_ v dim)

/-- Embeds `NArray::flipY` (src/wilt-narray/narray.hpp:1447-1453): `flip_(1)` after a
static assert that `N >= 2`. -/
def flipY (v : View) : View :=
  flip_ v 1

/-- Embeds `NArray::skip_` (src/wilt-narray/narray.hpp:1544-1554). -/
def skip_ (v : View) (dim : Nat) (n start : Int) : View :=
  ⟨v.data.map (· + v.steps.getD dim 0 * start),
   v.sizes.set dim ((v.sizes.getD dim 0 - start + n - 1).tdiv n),
   v.steps.set dim (v.steps.getD dim 0 * n)⟩

/-- Embeds `NArray::skip` (src/wilt-narray/narray.hpp:1481-1492). -/
def skip (v : View) (dim : Nat) (n start : Int) : Except Err View :=
  if dim ≥ v.sizes.length then .error .outOfRange
  else if n < 1 ∨ n ≥ v.sizes.getD dim 0 then .error .outOfRange
  else if start < 0 ∨ start ≥ v.sizes.getD dim 0 then .error .outOfRange
  else .ok (skip_ v dim n start)

/-- Embeds `NArray::transpose(dim1, dim2)` (src/wilt-narray/narray.hpp:1564-1576). -/
def transpose (v : View) (dim1 dim2 : Nat) : Except Err View :=
  if dim1 ≥ v.sizes.length then .error .outOfRange
  else if dim2 ≥ v.sizes.length then .error .outOfRange
  else .ok ⟨v.data, swapped v.sizes dim1 dim2, swapped v.steps dim1 dim2⟩

/-- Embeds `NArray<T,N>` of the legacy header (wilt-narray/narray.hpp:123-128):
`data_` (here a `Bool`: is a buffer referenced), `base_` (base offset),
`sizes_`, `steps_`. -/
structure LView where
  hasData : Bool
  base : Int
  sizes : List Int
  steps : List Int
deriving DecidableEq, Repr

/-- Legacy `NArray::slice_` (wilt-narray/narray.hpp:1398-1402). -/
def Lslice_ (v : LView) (dim : Nat) (n : Int) : LView :=
  ⟨v.hasData, v.base + v.steps.getD dim 0 * n,
   v.sizes.eraseIdx dim, v.steps.eraseIdx dim⟩

/-- Legacy `NArray::operator[]` (wilt-narray/narray.hpp:1339-1346): only the
upper bound of `n` is checked. -/
def LopIndex (v : LView) (n : Int) : Except Err LView :=
  if n ≥ v.sizes.getD 0 0 then .error .outOfRange
  else .ok (Lslice_ v 0 n)

/-- Legacy `NArray::sliceX` (wilt-narray/narray.hpp:1357-1364): checks both
bounds. -/
def LsliceX (v : LView) (x : Int) : Except Err LView :=
  if x ≥ v.sizes.getD 0 0 ∨ x < 0 then .error .outOfRange
  else .ok (Lslice_ v 0 x)

/-- Legacy `NArray::skip_` (wilt-narray/narray.hpp:1562-1570): note the base is
advanced by `steps_[dim] * n`, not by `steps_[dim] * start`. -/
def Lskip_ (v : LView) (dim : Nat) (n start : Int) : LView :=
  ⟨v.hasData, v.base + v.steps.getD dim 0 * n,
   v.sizes.set dim ((v.sizes.getD dim 0 - start + n - 1).tdiv n),
   v.steps.set dim (v.steps.getD dim 0 * n)⟩

/-- Legacy `NArray::skip` (wilt-narray/narray.hpp:1511-1518). -/
def Lskip (v : LView) (dim : Nat) (n start : Int) : Except Err LView :=
  if dim ≥ v.sizes.length ∨ n < 1 ∨ n ≥ v.sizes.getD dim 0 ∨ start < 0 then
    .error .outOfRange
  else .ok (Lskip_ v dim n start)

/-- C7 scenario: the `{4,3,2}` row-major view. -/
def viewC7 : View :=
  ⟨some 0, [4, 3, 2], [6, 2, 1]⟩

/-- C7: `For a freshly constructed view of sizes {4,3,2} with row-major steps
{6,2,1}, rangeX(1,3) then flipY() then transpose(1,2) yields sizes {3,2,3} and
steps {6,1,-2}.`  Confirmed by computation on the embedding. -/
theorem C7_range_flip_transpose_scenario :
    (do
      let a ← rangeX viewC7 1 3
      transpose (flipY a) 1 2) = .ok (⟨some 10, [3, 2, 3], [6, 1, -2]⟩ : View) := by
  rfl

/-- C1: the spec says `skip(dim,n,start)` advances the base offset by
`start*steps[dim]`.  The current header does exactly that, but the legacy
header's `skip_` advances the base by `n*steps[dim]` — contradicting its own
documentation ("optional start that denotes where the skipping starts from",
default `start = 0`): on a 1-D view of 10 elements with step 1,
`skip_(0, n=2, start=0)` yields base offset 2 in the legacy header and base
offset 0 (as specified) in the current one; both agree on the new sizes and
steps. -/
theorem C1_skip_base_offset_bug :
    Lskip_ ⟨true, 0, [10], [1]⟩ 0 2 0 = ⟨true, 2, [5], [2]⟩ ∧
    skip_ ⟨some 0, [10], [1]⟩ 0 2 0 = ⟨some 0, [5], [2]⟩ := by
  exact ⟨rfl, rfl⟩

/-- C8: the spec says `operator[](n)` raises a bounds error for every `n`
outside `[0, sizes[0])`, including negative `n`.  The current header does; the
legacy header checks only `n >= sizes_[0]`, contradicting its own documentation
("identical to sliceX(n)"): at `n = -1` on a non-empty `{2,3}` view the legacy
`operator[]` returns an out-of-bounds slice (base offset `-3`) while `sliceX`
and the current `operator[]` throw. -/
theorem C8_opIndex_negative_bug :
    LopIndex ⟨true, 0, [2, 3], [3, 1]⟩ (-1) = .ok ⟨true, -3, [3], [1]⟩ ∧
    LsliceX ⟨true, 0, [2, 3], [3, 1]⟩ (-1) = .error .outOfRange ∧
    opIndex ⟨some 0, [2, 3], [3, 1]⟩ (-1) = .error .outOfRange := by
  exact ⟨rfl, rfl, rfl⟩

/-- C10: `skip` rejects every skip count `n >= sizes[dim]` with an out-of-range
error, even though such `n` satisfies `n >= 1`; the accepted range is strictly
`1 <= n < sizes[dim]`.  This holds in both headers (for argument combinations
where the remaining checks pass: a valid `dim` and a valid `start`). -/
theorem C10_skip_accepts_only_n_below_size :
    (∀ (v : View) (dim : Nat) (n start : Int),
        dim < v.sizes.length → 0 ≤ start → start < v.sizes.getD dim 0 →
        (if 1 ≤ n ∧ n < v.sizes.getD dim 0
         then skip v dim n start = .ok (skip_ v dim n start)
         else skip v dim n start = .error .outOfRange)) ∧
    (∀ (lv : LView) (dim : Nat) (n start : Int),
        dim < lv.sizes.length → 0 ≤ start →
        (if 1 ≤ n ∧ n < lv.sizes.getD dim 0
         then Lskip lv dim n start = .ok (Lskip_ lv dim n start)
         else Lskip lv dim n start = .error .outOfRange)) := by
  constructor
  · intro v dim n start hdim hs1 hs2
    rw [skip]
    split_ifs with h1 h2 h3 h4 <;> first
      | rfl
      | omega
  · intro lv dim n start hdim hs1
    rw [Lskip]
    split_ifs with h1 h2 <;> first
      | rfl
      | omega

/-- Witness for C10 at concrete inputs: on a 1-D view of 10 elements,
`skip(0, 10, 0)` is rejected in both headers while `skip(0, 9, 0)` is
accepted. -/
theorem C10_witness :
    skip ⟨some 0, [10], [1]⟩ 0 10 0 = .error .outOfRange ∧
    Lskip ⟨true, 0, [10], [1]⟩ 0 10 0 = .error .outOfRange ∧
    skip ⟨some 0, [10], [1]⟩ 0 9 0 = .ok (skip_ ⟨some 0, [10], [1]⟩ 0 9 0) := by
  refine ⟨?_, ?_, ?_⟩
  · have h := C10_skip_accepts_only_n_below_size.1 ⟨some 0, [10], [1]⟩ 0 10 0
      (by decide) (by decide) (by decide)
    rw [if_neg (by decide)] at h
    exact h
  · have h := C10_skip_accepts_only_n_below_size.2 ⟨true, 0, [10], [1]⟩ 0 10 0
      (by decide) (by decide)
    rw [if_neg (by decide)] at h
    exact h
  · have h := C10_skip_accepts_only_n_below_size.1 ⟨some 0, [10], [1]⟩ 0 9 0
      (by decide) (by decide) (by decide)
    rw [if_pos (by decide)] at h
    exact h

/-- Embeds `NArray::isAligned` of the current header (src/wilt-narray/narray.hpp:
1174-1189), inner loop: `for (i = N; i > 0; --i)` over `sizes_[i-1]`,
`steps_[i-1]` with the running `endstep`. -/
def isAlignedLoop (sizes steps : List Int) : Nat → Int → Bool
  | 0, _ => true
  | i + 1, endstep =>
      if sizes.getD i 0 = 1 then isAlignedLoop sizes steps i endstep
      else if endstep > steps.getD i 0 then false
      else isAlignedLoop sizes steps i (endstep + (sizes.getD i 0 - 1) * steps.getD i 0)

/-- Embeds `NArray::isAligned` of the current header: false when empty, else the loop
above starting at the last axis with `endstep = 0`. -/
def isAligned (v : View) : Bool :=
  match v.data with
  | none => false
  | some _ => isAlignedLoop v.sizes v.steps v.sizes.length 0

/-- The algorithm exactly as claim C5 words it: process (size, step) pairs from
the last axis to the first, skip axes of size 1, fail when `maxOffset >
steps[axis]`, else accumulate `(sizes[axis]-1)*steps[axis]`. -/
def isAlignedSpecAux : List (Int × Int) → Int → Bool
  | [], _ => true
  | (sz, st) :: rest, maxOffset =>
      if sz = 1 then isAlignedSpecAux rest maxOffset
      else if maxOffset > st then false
      else isAlignedSpecAux rest (maxOffset + (sz - 1) * st)

/-- Claim C5's algorithm over a view: not aligned when empty, else the above
over the axis list reversed (last axis first). -/
def isAlignedSpec (v : View) : Bool :=
  if v.data.isNone then false
  else isAlignedSpecAux ((v.sizes.zip v.steps).reverse) 0

/-- Legacy `NArray::isAligned` (wilt-narray/narray.hpp:1311-1321), first loop:
every step must be positive. -/
def allPosSteps (l : List Int) : Bool :=
  l.all (fun s => decide (0 < s))

/-- Legacy `NArray::isAligned`, second loop: no step may be smaller than its
successor. -/
def stepsNonIncr : List Int → Bool
  | [] => true
  | [_] => true
  | a :: b :: rest => if a < b then false else stepsNonIncr (b :: rest)

/-- Legacy `NArray::isAligned` (wilt-narray/narray.hpp:1311-1321): all steps
positive and non-increasing. -/
def LisAligned (v : LView) : Bool :=
  allPosSteps v.steps && stepsNonIncr v.steps

theorem getD_concat_self (l : List α) (x d : α) : (l ++ [x]).getD l.length d = x := by
  induction l with
  | nil => rfl
  | cons a as ih => exact ih

theorem isAlignedLoop_append (xs ys : List Int) (x y : Int) (i : Nat) (e : Int)
    (hi : i ≤ xs.length) (hys : ys.length = xs.length) :
    isAlignedLoop (xs ++ [x]) (ys ++ [y]) i e = isAlignedLoop xs ys i e := by
  induction i generalizing e with
  | zero => rfl
  | succ k ih =>
    have hk : k < xs.length := by omega
    have hk' : k < ys.length := by omega
    rw [isAlignedLoop, isAlignedLoop, List.getD_append _ _ _ _ hk,
      List.getD_append _ _ _ _ hk']
    split_ifs <;> first
      | exact ih _ (by omega)
      | rfl

theorem isAlignedLoop_eq_spec (sizes steps : List Int) (e : Int)
    (h : steps.length = sizes.length) :
    isAlignedLoop sizes steps sizes.length e =
      isAlignedSpecAux ((sizes.zip steps).reverse) e := by
  induction sizes using List.reverseRecOn generalizing steps e with
  | nil =>
    have : steps = [] := List.eq_nil_of_length_eq_zero h
    subst this
    rfl
  | append_singleton xs x ih =>
    rcases List.eq_nil_or_concat steps with rfl | ⟨ys, y, rfl⟩
    · simp at h
    · simp only [List.concat_eq_append] at *
      have hlen : ys.length = xs.length := by
        simpa using h
      have hzip : (xs ++ [x]).zip (ys ++ [y]) = xs.zip ys ++ [(x, y)] := by
        rw [List.zip_append (by omega)]
        rfl
      have hxs : (xs ++ [x]).length = xs.length + 1 := by simp
      have hgd : (ys ++ [y]).getD xs.length 0 = y := by
        rw [← hlen]
        exact getD_concat_self ys y 0
      rw [hxs, isAlignedLoop, hzip, List.reverse_append]
      rw [getD_concat_self, hgd]
      simp only [List.reverse_cons, List.reverse_nil, List.nil_append,
        List.cons_append, List.singleton_append, isAlignedSpecAux]
      split_ifs with h1 h2
      · rw [isAlignedLoop_append xs ys x y _ _ le_rfl hlen, ih ys e hlen]
        simp
      · rfl
      · rw [isAlignedLoop_append xs ys x y _ _ le_rfl hlen, ih ys _ hlen]
        simp

theorem stepsNonIncr_iff_chain (l : List Int) :
    stepsNonIncr l = true ↔ List.Chain' (fun a b => b ≤ a) l := by
  induction l with
  | nil => simp [stepsNonIncr]
  | cons a rest ih =>
    cases rest with
    | nil => simp [stepsNonIncr]
    | cons b rs =>
      rw [stepsNonIncr, List.chain'_cons]
      constructor
      · intro h
        split_ifs at h with hab
        · exact ⟨by omega, ih.mp h⟩
      · rintro ⟨h1, h2⟩
        rw [if_neg (by omega)]
        exact ih.mpr h2

/-- C5 (corrected): the claim's "maxOffset" algorithm is exactly what the
current header's `isAligned` computes (with an empty view reported not
aligned), while the legacy header's `isAligned` instead tests that all steps
are positive and non-increasing. -/
theorem C5_isAligned_algorithm :
    (∀ v : View, v.steps.length = v.sizes.length → isAligned v = isAlignedSpec v) ∧
    (∀ lv : LView,
      LisAligned lv = true ↔
        (∀ s ∈ lv.steps, 0 < s) ∧ List.Chain' (fun a b => b ≤ a) lv.steps) := by
  constructor
  · intro v h
    cases hv : v.data with
    | none => simp [isAligned, isAlignedSpec, hv]
    | some b =>
      simp only [isAligned, isAlignedSpec, hv, Option.isNone_some, Bool.false_eq_true,
        if_false]
      exact isAlignedLoop_eq_spec v.sizes v.steps 0 h
  · intro lv
    rw [LisAligned, Bool.and_eq_true, ← stepsNonIncr_iff_chain]
    simp [allPosSteps, List.all_eq_true]

/-- Witness for C5 at concrete inputs. -/
theorem C5_witness :
    isAligned ⟨some 0, [2, 2], [2, 1]⟩ = isAlignedSpec ⟨some 0, [2, 2], [2, 1]⟩ ∧
    ((∀ s ∈ ([3, 1] : List Int), 0 < s) ∧
      List.Chain' (fun a b : Int => b ≤ a) [3, 1]) := by
  constructor
  · exact C5_isAligned_algorithm.1 ⟨some 0, [2, 2], [2, 1]⟩ (by decide)
  · exact (C5_isAligned_algorithm.2 ⟨true, 0, [2, 2], [3, 1]⟩).mp (by rfl)

/-- C5 counterexample: on the reachable view with sizes `{2,1}` and steps
`{1,-1}` (e.g. a fresh `{2,1}` array flipped along axis 1) the legacy
`isAligned` returns false, while the algorithm the claim describes — and the
current header — return true, so the claim is false of the legacy header it
cites. -/
theorem C5_counterexample :
    LisAligned ⟨true, 0, [2, 1], [1, -1]⟩ = false ∧
    isAlignedSpec ⟨some 0, [2, 1], [1, -1]⟩ = true ∧
    isAligned ⟨some 0, [2, 1], [1, -1]⟩ = true := by
  exact ⟨rfl, rfl, rfl⟩

/-- Two-step-array `detail::condense` (src/wilt-narray/narray.hpp:756-774),
inner loop.  State: `gsz` is the accumulated group size (`sizes[j]`), `p1`/`p2`
are the previous axis's steps (`step1[i-1]`, `step2[i-1]`); each output triple
is one effective axis `(sizes[j], step1[j], step2[j])`.  The loop merges axis
`i` into the current group when `sizes[i] * step1[i] == step1[i-1]` — the test
reads only `step1`; `step2` is merely carried along. -/
def condense2Aux (gsz p1 p2 : Int) :
    List Int → List Int → List Int → List (Int × Int × Int)
  | sz :: szs, s1 :: s1s, s2 :: s2s =>
      if sz * s1 = p1 then condense2Aux (gsz * sz) s1 s2 szs s1s s2s
      else (gsz, p1, p2) :: condense2Aux sz s1 s2 szs s1s s2s
  | _, _, _ => [(gsz, p1, p2)]

/-- Two-step-array `detail::condense`: starts with axis 0 as the initial group;
returns the list of effective axes (the function's return value `j+1` is the
length of this list). -/
def condense2 (sizes step1 step2 : List Int) : List (Int × Int × Int) :=
  match sizes, step1, step2 with
  | sz :: szs, s1 :: s1s, s2 :: s2s => condense2Aux sz s1 s2 szs s1s s2s
  | _, _, _ => []

theorem condense2Aux_ignores_step2 (szs s1s : List Int) :
    ∀ (s2s s2s' : List Int) (gsz p1 p2 p2' : Int), s2s.length = s2s'.length →
      (condense2Aux gsz p1 p2 szs s1s s2s).map (fun g => (g.1, g.2.1)) =
        (condense2Aux gsz p1 p2' szs s1s s2s').map (fun g => (g.1, g.2.1)) := by
  induction szs generalizing s1s with
  | nil => intro s2s s2s' gsz p1 p2 p2' h; rfl
  | cons sz szs ih =>
    intro s2s s2s' gsz p1 p2 p2' h
    cases s1s with
    | nil => rfl
    | cons s1 s1s =>
      cases s2s with
      | nil =>
        have : s2s' = [] := by
          cases s2s' with
          | nil => rfl
          | cons _ _ => simp at h
        subst this
        rfl
      | cons s2 s2s =>
        cases s2s' with
        | nil => simp at h
        | cons s2' s2s' =>
          have h' : s2s.length = s2s'.length := by simpa using h
          rw [condense2Aux, condense2Aux]
          split_ifs with hc
          · exact ih s1s s2s s2s' (gsz * sz) s1 s2 s2' h'
          · simp only [List.map_cons]
            rw [ih s1s s2s s2s' sz s1 s2 s2' h']

/-- C2 (corrected, amended part): the merge decision of the two-step-array
`condense` overload — and hence the effective axis count and the output sizes
and first-step values — depends only on `sizes` and `step1`; the second step
array is never consulted. -/
theorem C2_condense2_merge_ignores_step2 (sizes step1 step2 step2' : List Int)
    (h : step2.length = step2'.length) :
    (condense2 sizes step1 step2).map (fun g => (g.1, g.2.1)) =
      (condense2 sizes step1 step2').map (fun g => (g.1, g.2.1)) ∧
    (condense2 sizes step1 step2).length = (condense2 sizes step1 step2').length := by
  have hmain : (condense2 sizes step1 step2).map (fun g => (g.1, g.2.1)) =
      (condense2 sizes step1 step2').map (fun g => (g.1, g.2.1)) := by
    cases sizes with
    | nil => rfl
    | cons sz szs =>
      cases step1 with
      | nil => rfl
      | cons s1 s1s =>
        cases step2 with
        | nil =>
          have : step2' = [] := by
            cases step2' with
            | nil => rfl
            | cons _ _ => simp at h
          subst this
          rfl
        | cons s2 s2s =>
          cases step2' with
          | nil => simp at h
          | cons s2' s2s' =>
            exact condense2Aux_ignores_step2 szs s1s s2s s2s' sz s1 s2 s2'
              (by simpa using h)
  refine ⟨hmain, ?_⟩
  have := congrArg List.length hmain
  simpa using this

/-- Witness for C2's amended theorem at a concrete input. -/
theorem C2_witness :
    (condense2 [2, 3] [3, 1] [1, 1]).map (fun g => (g.1, g.2.1)) =
      (condense2 [2, 3] [3, 1] [9, 9]).map (fun g => (g.1, g.2.1)) := by
  exact (C2_condense2_merge_ignores_step2 [2, 3] [3, 1] [1, 1] [9, 9] rfl).1

/-- C2 counterexample: with `sizes = {2,3}`, `step1 = {3,1}`, `step2 = {1,1}`
the `step1` contiguity test at axis 1 passes (`3*1 = 3 = step1[0]`) while the
`step2` test fails (`3*1 = 3 ≠ 1 = step2[0]`), yet the two axes are merged into
a single effective axis — the claim's "merge only when the test holds for both
step arrays" would have produced two effective axes. -/
theorem C2_counterexample :
    condense2 [2, 3] [3, 1] [1, 1] = [(6, 1, 1)] ∧ ¬ ((3 : Int) * 1 = 1) := by
  exact ⟨rfl, by decide⟩

/-- Embeds `detail::align` (src/wilt-narray/narray.hpp:678-699), first loop: for each
axis with a negative step, negate the step and subtract the now-positive step
times `(size - 1)` from the running offset.  Processes `(size, step)` pairs. -/
def alignNegateAux : List (Int × Int) → List (Int × Int) × Int
  | [] => ([], 0)
  | (sz, st) :: rest =>
      let r := alignNegateAux rest
      if st < 0 then ((sz, -st) :: r.1, r.2 - -st * (sz - 1))
      else ((sz, st) :: r.1, r.2)

/-- Embeds `detail::align`, second loop, inner `for (j = i; j > 0 && steps[j] >
steps[j-1]; --j) swap` — the new element bubbles left past every element whose
step is strictly smaller.  On the reversed sorted prefix `rp` (rightmost axis
first) this inserts `x` in front of the first element whose step is `≥ x`'s. -/
def insertDesc (x : Int × Int) : List (Int × Int) → List (Int × Int)
  | [] => [x]
  | a :: ra => if a.2 < x.2 then a :: insertDesc x ra else x :: a :: ra

/-- Embeds `detail::align`, second loop, outer `for (i = 1; i < N; ++i)`: maintains the
sorted prefix (kept reversed in the accumulator) and inserts each next axis. -/
def alignSortAux : List (Int × Int) → List (Int × Int) → List (Int × Int)
  | rp, [] => rp.reverse
  | rp, x :: xs => alignSortAux (insertDesc x rp) xs

/-- Embeds `detail::align` (src/wilt-narray/narray.hpp:678-699): negate-and-offset
pass, then the adjacent-swap insertion sort, returning the permuted sizes, the
permuted steps and the accumulated base offset. -/
def align (sizes steps : List Int) : List Int × List Int × Int :=
  let n := alignNegateAux (sizes.zip steps)
  let sorted := alignSortAux [] n.1
  (sorted.map Prod.fst, sorted.map Prod.snd, n.2)

/-- The sign-normalized axes: each step replaced by its absolute value.  This is
the claim's description of `align`'s first pass, used to state what the sort
permutes. -/
def negatedAxes (sizes steps : List Int) : List (Int × Int) :=
  (sizes.zip steps).map (fun p => (p.1, if p.2 < 0 then -p.2 else p.2))

theorem alignNegateAux_fst (l : List (Int × Int)) :
    (alignNegateAux l).1 = l.map (fun p => (p.1, if p.2 < 0 then -p.2 else p.2)) := by
  induction l with
  | nil => rfl
  | cons a rest ih =>
    obtain ⟨sz, st⟩ := a
    rw [alignNegateAux]
    split_ifs with h <;> simp [ih, h]

theorem alignNegateAux_snd (l : List (Int × Int)) :
    (alignNegateAux l).2 =
      -((l.filter (fun p => decide (p.2 < 0))).map (fun p => -p.2 * (p.1 - 1))).sum := by
  induction l with
  | nil => simp [alignNegateAux]
  | cons a rest ih =>
    obtain ⟨sz, st⟩ := a
    by_cases h : st < 0
    · simp only [alignNegateAux, List.filter_cons, decide_eq_true_eq, h, if_true,
        if_pos, List.map_cons, List.sum_cons, ih]
      ring
    · simp [alignNegateAux, List.filter_cons, h, ih]

theorem insertDesc_perm (x : Int × Int) (l : List (Int × Int)) :
    (insertDesc x l).Perm (x :: l) := by
  induction l with
  | nil => rfl
  | cons a ra ih =>
    rw [insertDesc]
    split_ifs with h
    · exact ((ih.cons a).trans (List.Perm.swap x a ra))
    · rfl

theorem mem_insertDesc {b x : Int × Int} {l : List (Int × Int)}
    (hb : b ∈ insertDesc x l) : b = x ∨ b ∈ l := by
  have := (insertDesc_perm x l).mem_iff.mp hb
  simpa using this

theorem insertDesc_sorted (x : Int × Int) (l : List (Int × Int))
    (hs : List.Sorted (fun a b : Int × Int => a.2 ≤ b.2) l) :
    List.Sorted (fun a b : Int × Int => a.2 ≤ b.2) (insertDesc x l) := by
  induction l with
  | nil => simp [insertDesc]
  | cons a ra ih =>
    rw [List.sorted_cons] at hs
    rw [insertDesc]
    split_ifs with h
    · rw [List.sorted_cons]
      refine ⟨?_, ih hs.2⟩
      intro b hb
      rcases mem_insertDesc hb with rfl | hb
      · exact le_of_lt h
      · exact hs.1 b hb
    · rw [List.sorted_cons, List.sorted_cons]
      refine ⟨?_, hs⟩
      intro b hb
      rcases List.mem_cons.mp hb with rfl | hb
      · omega
      · exact le_trans (by omega) (hs.1 b hb)

theorem alignSortAux_perm (xs : List (Int × Int)) :
    ∀ rp, (alignSortAux rp xs).Perm (rp ++ xs) := by
  induction xs with
  | nil =>
    intro rp
    have h1 : alignSortAux rp [] = rp.reverse := rfl
    rw [h1, List.append_nil]
    exact rp.reverse_perm
  | cons x xs ih =>
    intro rp
    rw [alignSortAux]
    refine (ih (insertDesc x rp)).trans ?_
    refine (((insertDesc_perm x rp).append_right xs).trans ?_)
    exact List.perm_middle.symm

theorem alignSortAux_sorted (xs : List (Int × Int)) :
    ∀ rp, List.Sorted (fun a b : Int × Int => a.2 ≤ b.2) rp →
      List.Sorted (fun a b : Int × Int => b.2 ≤ a.2) (alignSortAux rp xs) := by
  induction xs with
  | nil =>
    intro rp h
    rw [alignSortAux, List.Sorted, List.pairwise_reverse]
    exact h
  | cons x xs ih =>
    intro rp h
    rw [alignSortAux]
    exact ih _ (insertDesc_sorted x rp h)

theorem insertDesc_filter (v : Int) (x : Int × Int) (l : List (Int × Int)) :
    (insertDesc x l).filter (fun p => decide (p.2 = v)) =
      if x.2 = v then x :: l.filter (fun p => decide (p.2 = v))
      else l.filter (fun p => decide (p.2 = v)) := by
  induction l with
  | nil =>
    rw [insertDesc]
    split_ifs with h <;> simp [List.filter, h]
  | cons a ra ih =>
    rw [insertDesc]
    by_cases hlt : a.2 < x.2
    · rw [if_pos hlt]
      by_cases hx : x.2 = v
      · have ha : ¬ (a.2 = v) := by omega
        simp [List.filter_cons, ha, hx, ih]
      · by_cases ha : a.2 = v <;> simp [List.filter_cons, ha, hx, ih]
    · rw [if_neg hlt]
      by_cases hx : x.2 = v <;> simp [List.filter_cons, hx]

theorem alignSortAux_filter (v : Int) (xs : List (Int × Int)) :
    ∀ rp, (alignSortAux rp xs).filter (fun p => decide (p.2 = v)) =
      (rp.filter (fun p => decide (p.2 = v))).reverse ++
        xs.filter (fun p => decide (p.2 = v)) := by
  induction xs with
  | nil => intro rp; simp [alignSortAux, List.filter_reverse]
  | cons x xs ih =>
    intro rp
    rw [alignSortAux, ih (insertDesc x rp), insertDesc_filter]
    split_ifs with hx
    · simp [List.filter_cons, hx]
    · simp [List.filter_cons, hx]

/-- C3 (corrected): `align` first negates every negative step, subtracting the
now-positive step times `(size-1)` from the running offset, and then
stable-sorts the axes by **descending** (not ascending) step value, permuting
sizes and steps together.  Stated as: the output axis pairs are a permutation
of the sign-normalized input pairs, sorted non-increasingly by step, stable
(axes of equal step keep their relative order), with the offset given by the
negative-step sum. -/
theorem C3_align_negates_then_sorts_descending (sizes steps : List Int) :
    ((align sizes steps).1.zip (align sizes steps).2.1).Perm
        (negatedAxes sizes steps) ∧
    List.Sorted (fun a b : Int × Int => b.2 ≤ a.2)
        ((align sizes steps).1.zip (align sizes steps).2.1) ∧
    (∀ v : Int, ((align sizes steps).1.zip (align sizes steps).2.1).filter
          (fun p => decide (p.2 = v)) =
        (negatedAxes sizes steps).filter (fun p => decide (p.2 = v))) ∧
    (align sizes steps).2.2 =
      -(((sizes.zip steps).filter (fun p => decide (p.2 < 0))).map
          (fun p => -p.2 * (p.1 - 1))).sum := by
  have hzip : (align sizes steps).1.zip (align sizes steps).2.1 =
      alignSortAux [] (alignNegateAux (sizes.zip steps)).1 := by
    rw [align]
    simp [List.zip_map']
  have hneg : (alignNegateAux (sizes.zip steps)).1 = negatedAxes sizes steps := by
    rw [alignNegateAux_fst, negatedAxes]
  refine ⟨?_, ?_, ?_, ?_⟩
  · rw [hzip, hneg]
    simpa using alignSortAux_perm (negatedAxes sizes steps) []
  · rw [hzip]
    exact alignSortAux_sorted _ [] (by simp)
  · intro v
    rw [hzip, hneg]
    simpa using alignSortAux_filter v (negatedAxes sizes steps) []
  · rw [align]
    exact alignNegateAux_snd (sizes.zip steps)

/-- C3 counterexample: on sizes `{2,3}` with (already positive) steps `{1,3}`
the claim's ascending stable sort would leave the axes unchanged, but `align`
produces steps `{3,1}` — sorted descending, not ascending. -/
theorem C3_counterexample :
    align [2, 3] [1, 3] = ([3, 2], [3, 1], 0) ∧
    ¬ List.Sorted (fun a b : Int => a ≤ b) (align [2, 3] [1, 3]).2.1 := by
  refine ⟨rfl, ?_⟩
  intro h
  have := List.rel_of_sorted_cons h 1 (by decide)
  omega

/-- Embeds `NArray::isContiguous` (src/wilt-narray/narray.hpp:1164-1172):
`sum of steps[i]*(sizes[i]-1), plus 1, equals size()` (the product of the
sizes). -/
def isContiguous (v : View) : Bool :=
  decide ((v.sizes.zip v.steps).foldl (fun acc p => acc + p.2 * (p.1 - 1)) 0 + 1 =
    sizeProd v.sizes)

/-- Single-step-array `detail::condense` (src/wilt-narray/narray.hpp:714-738),
main loop, as the list of effective axes `(size, step)` it builds at positions
`j..N-1` (leftmost group first).  Scanning right to left, the axis to the left
is merged into the current group when `steps[j]*sizes[j] == steps[i-1]`
(multiplying the group size), else it starts a new group. -/
def condenseGroups : List (Int × Int) → List (Int × Int)
  | [] => []
  | (sz, st) :: rest =>
    match condenseGroups rest with
    | [] => [(sz, st)]
    | (gsz, gst) :: gs =>
        if gst * gsz = st then (sz * gsz, gst) :: gs
        else (sz, st) :: (gsz, gst) :: gs

/-- One step of `NArray::reshape`'s main loop (src/wilt-narray/narray.hpp:
1649-1667) for a fixed requested size `nsz`: the condensed old axes are the
first list, the head carrying the partially consumed size.  When the remaining
old size is divisible by `nsz`, emit the step `(oldsize/nsz)*oldstep` and
shrink the remainder; when the old axis is consumed (`== 1`) advance past it
and retry; anything else is a shape-incompatibility error.  When the old axes
are exhausted (`i == N`), the trailing loop (lines 1672-1676) requires
`nsz == 1` and emits step 1. -/
def reshapeStep (nsz : Int) :
    List (Int × Int) → Except Err (Int × List (Int × Int))
  | [] => if nsz = 1 then .ok (1, []) else .error .domainError
  | (osz, ost) :: olds =>
      if osz.tdiv nsz * nsz = osz then
        .ok (osz.tdiv nsz * ost, (osz.tdiv nsz, ost) :: olds)
      else if osz = 1 then reshapeStep nsz olds
      else .error .domainError

/-- Embeds `NArray::reshape`'s main loop, walking the requested sizes left to right;
the loop stops when the new sizes are exhausted (the source's
leftover-old-axes check, `for (k = N; k < N; ++k)`, is dead code and never
fires, so leftover old axes are accepted silently). -/
def reshapeWalk (olds : List (Int × Int)) :
    List Int → Except Err (List Int)
  | [] => .ok []
  | nsz :: news =>
      match reshapeStep nsz olds with
      | .error e => .error e
      | .ok (st, olds') =>
          match reshapeWalk olds' news with
          | .error e => .error e
          | .ok rest => .ok (st :: rest)

/-- Embeds `NArray::reshape` (src/wilt-narray/narray.hpp:1634-1679): empty and
`validSize` checks, condense, then the lockstep walk above; the result shares
the data reference and carries the requested sizes with the computed steps. -/
def reshape (v : View) (newsizes : List Int) : Except Err View :=
  match v.data with
  | none => .error .domainError
  | some b =>
    if validSize newsizes = false then .error .invalidArgument
    else
      match reshapeWalk (condenseGroups (v.sizes.zip v.steps)) newsizes with
      | .error e => .error e
      | .ok newsteps => .ok ⟨some b, newsizes, newsteps⟩

/-- The view for the C6 counterexample: sizes `{2,1}`, steps `{1,2}` — the
result of `NArray({7,2})`, `transpose()`, `range(1,0,1)`. -/
def viewC6 : View :=
  ⟨some 0, [2, 1], [1, 2]⟩

/-- C6 counterexample: `viewC6` is contiguous and aligned with total size 2,
but `reshape({2})` followed by `reshape({2,1})` yields steps `{1,1}`, not the
original steps `{1,2}`. -/
theorem C6_counterexample :
    isContiguous viewC6 = true ∧ isAligned viewC6 = true ∧
    (do
      let a ← reshape viewC6 [2]
      reshape a [2, 1]) = .ok (⟨some 0, [2, 1], [1, 1]⟩ : View) ∧
    (⟨some 0, [2, 1], [1, 1]⟩ : View) ≠ viewC6 := by
  refine ⟨rfl, rfl, rfl, by decide⟩

theorem stepList_cons : ∀ (l : List Int) (x : Int),
    stepList (x :: l) = l.prod :: stepList l
  | [], x => by simp [stepList]
  | y :: rest, x => by
      have h : stepList (x :: y :: rest) =
          ((stepList (y :: rest)).headD 1 * y) :: stepList (y :: rest) := rfl
      rw [h, stepList_cons rest y]
      simp [List.prod_cons, Int.mul_comm]

theorem stepList_length (l : List Int) : (stepList l).length = l.length := by
  induction l with
  | nil => rfl
  | cons x rest ih =>
    rw [stepList_cons]
    simpa using ih

theorem sizeProd_eq_prod : ∀ (l : List Int), l ≠ [] → sizeProd l = l.prod := by
  have hfold : ∀ (rest : List Int) (x : Int), rest.foldl (· * ·) x = x * rest.prod := by
    intro rest
    induction rest with
    | nil => intro x; simp
    | cons y r ih =>
      intro x
      rw [List.foldl_cons, ih, List.prod_cons, Int.mul_assoc]
  intro l hl
  cases l with
  | nil => exact absurd rfl hl
  | cons x rest => rw [sizeProd, hfold, List.prod_cons]

theorem foldl_add_sum (f : Int × Int → Int) :
    ∀ (l : List (Int × Int)) (acc : Int),
      l.foldl (fun a p => a + f p) acc = acc + (l.map f).sum := by
  intro l
  induction l with
  | nil => intro acc; simp
  | cons p rest ih =>
    intro acc
    rw [List.foldl_cons, ih, List.map_cons, List.sum_cons]
    ring

theorem canonical_span (l : List Int) :
    ((l.zip (stepList l)).map (fun p => p.2 * (p.1 - 1))).sum = l.prod - 1 := by
  induction l with
  | nil => simp
  | cons x rest ih =>
    rw [stepList_cons, List.zip_cons_cons, List.map_cons, List.sum_cons, ih,
      List.prod_cons]
    ring

theorem isContiguous_canonical (sizes : List Int) (b : Int) (h : sizes ≠ []) :
    isContiguous ⟨some b, sizes, stepList sizes⟩ = true := by
  rw [isContiguous, decide_eq_true_eq]
  show (sizes.zip (stepList sizes)).foldl (fun acc p => acc + p.2 * (p.1 - 1)) 0 + 1 =
    sizeProd sizes
  rw [foldl_add_sum, canonical_span, sizeProd_eq_prod sizes h]
  ring

theorem specAux_append_true (l1 : List (Int × Int)) :
    ∀ (l2 : List (Int × Int)) (e : Int), isAlignedSpecAux l1 e = true →
      isAlignedSpecAux (l1 ++ l2) e =
        isAlignedSpecAux l2 (e + (l1.map (fun p => (p.1 - 1) * p.2)).sum) := by
  induction l1 with
  | nil => intro l2 e _; simp
  | cons p l1 ih =>
    obtain ⟨sz, st⟩ := p
    intro l2 e h
    rw [List.cons_append]
    rw [isAlignedSpecAux] at h ⊢
    by_cases h1 : sz = 1
    · rw [if_pos h1] at h ⊢
      rw [ih l2 e h, List.map_cons, List.sum_cons, h1]
      simp
    · rw [if_neg h1] at h ⊢
      by_cases h2 : e > st
      · rw [if_pos h2] at h
        exact absurd h (by simp)
      · rw [if_neg h2] at h ⊢
        rw [ih l2 _ h, List.map_cons, List.sum_cons]
        congr 1
        ring

theorem map_sub_one_mul_comm (l : List (Int × Int)) :
    l.map (fun p => (p.1 - 1) * p.2) = l.map (fun p => p.2 * (p.1 - 1)) := by
  induction l with
  | nil => rfl
  | cons p rest ih => rw [List.map_cons, List.map_cons, ih, Int.mul_comm]

theorem isAlignedSpecAux_canonical (sizes : List Int) (h : ∀ x ∈ sizes, 0 < x) :
    isAlignedSpecAux ((sizes.zip (stepList sizes)).reverse) 0 = true := by
  induction sizes with
  | nil => rfl
  | cons x rest ih =>
    have hx : 0 < x := h x (by simp)
    have hrest : ∀ y ∈ rest, 0 < y := fun y hy => h y (by simp [hy])
    have hprod : 0 < rest.prod := List.prod_pos hrest
    rw [stepList_cons, List.zip_cons_cons, List.reverse_cons]
    rw [specAux_append_true _ _ _ (ih hrest)]
    have hsum : ((((rest.zip (stepList rest)).reverse).map
        (fun p => (p.1 - 1) * p.2)).sum) = rest.prod - 1 := by
      rw [map_sub_one_mul_comm, List.map_reverse, List.sum_reverse, canonical_span]
    rw [hsum]
    rw [isAlignedSpecAux]
    split_ifs with h1 h2
    · rfl
    · omega
    · rfl

theorem isAligned_canonical (sizes : List Int) (b : Int) (h : ∀ x ∈ sizes, 0 < x) :
    isAligned ⟨some b, sizes, stepList sizes⟩ = true := by
  show isAlignedLoop sizes (stepList sizes) sizes.length 0 = true
  rw [isAlignedLoop_eq_spec sizes (stepList sizes) 0 (stepList_length sizes)]
  exact isAlignedSpecAux_canonical sizes h

theorem condenseGroups_canonical : ∀ (l : List Int), l ≠ [] → (∀ x ∈ l, 0 < x) →
    condenseGroups (l.zip (stepList l)) = [(l.prod, 1)] := by
  intro l
  induction l with
  | nil => intro h; exact absurd rfl h
  | cons x rest ih =>
    intro _ hpos
    cases rest with
    | nil => simp [stepList, condenseGroups]
    | cons y r =>
      have hrest : (y :: r) ≠ [] := by simp
      have hrpos : ∀ z ∈ y :: r, 0 < z := fun z hz => hpos z (by simp [hz])
      rw [stepList_cons, List.zip_cons_cons, condenseGroups, ih hrest hrpos]
      simp [List.prod_cons]

theorem reshapeWalk_canonical : ∀ (sizes : List Int), (∀ x ∈ sizes, 0 < x) →
    reshapeWalk [(sizes.prod, 1)] sizes = .ok (stepList sizes) := by
  intro sizes
  induction sizes with
  | nil => intro _; rfl
  | cons x rest ih =>
    intro hpos
    have hx : 0 < x := hpos x (by simp)
    have hrpos : ∀ y ∈ rest, 0 < y := fun y hy => hpos y (by simp [hy])
    have hdiv : ((x :: rest).prod).tdiv x = rest.prod := by
      rw [List.prod_cons, Int.mul_tdiv_cancel_left _ (by omega)]
    have hstep : reshapeStep x [((x :: rest).prod, 1)] =
        .ok (rest.prod, [(rest.prod, 1)]) := by
      rw [reshapeStep, if_pos (by rw [hdiv, List.prod_cons, Int.mul_comm])]
      rw [hdiv, Int.mul_one]
    rw [reshapeWalk, hstep]
    dsimp only
    rw [ih hrpos]
    dsimp only
    rw [stepList_cons]

/-- C6 (corrected): for a non-empty view whose steps are exactly the canonical
row-major steps of its (all-positive) sizes — such a view is contiguous and
aligned — `reshape({S})` followed by `reshape(originalSizes)` reproduces the
original sizes and steps. -/
theorem C6_reshape_roundtrip_canonical (sizes : List Int) (b : Int)
    (h1 : sizes ≠ []) (h2 : ∀ x ∈ sizes, 0 < x) :
    isContiguous ⟨some b, sizes, stepList sizes⟩ = true ∧
    isAligned ⟨some b, sizes, stepList sizes⟩ = true ∧
    (do
      let a ← reshape (⟨some b, sizes, stepList sizes⟩ : View) [sizeProd sizes]
      reshape a sizes) = .ok (⟨some b, sizes, stepList sizes⟩ : View) := by
  have hprod : 0 < sizes.prod := List.prod_pos h2
  have hsz : sizeProd sizes = sizes.prod := sizeProd_eq_prod sizes h1
  refine ⟨isContiguous_canonical sizes b h1, isAligned_canonical sizes b h2, ?_⟩
  have hvalid1 : validSize [sizeProd sizes] = true := by
    rw [validSize, hsz]
    simpa using hprod
  have hvalid2 : validSize sizes = true := by
    rw [validSize]
    simpa [List.all_eq_true] using h2
  have hwalk1 : reshapeWalk [(sizes.prod, 1)] [sizeProd sizes] = .ok [1] := by
    have := reshapeWalk_canonical [sizeProd sizes]
      (by intro y hy; simp at hy; omega)
    rw [show ([sizeProd sizes].prod) = sizes.prod by simp [hsz]] at this
    rw [this]
    rfl
  have hr1 : reshape (⟨some b, sizes, stepList sizes⟩ : View) [sizeProd sizes] =
      .ok ⟨some b, [sizeProd sizes], [1]⟩ := by
    show (if validSize [sizeProd sizes] = false
        then (.error .invalidArgument : Except Err View)
        else match reshapeWalk (condenseGroups (sizes.zip (stepList sizes)))
            [sizeProd sizes] with
          | .error e => .error e
          | .ok newsteps => .ok ⟨some b, [sizeProd sizes], newsteps⟩) =
      .ok ⟨some b, [sizeProd sizes], [1]⟩
    rw [hvalid1, if_neg (by simp), condenseGroups_canonical sizes h1 h2, hwalk1]
  have hgroups2 : condenseGroups ([sizeProd sizes].zip (stepList [sizeProd sizes])) =
      [(sizes.prod, 1)] := by
    rw [show stepList [sizeProd sizes] = [1] from rfl]
    simp [condenseGroups, hsz]
  have hr2 : reshape (⟨some b, [sizeProd sizes], [1]⟩ : View) sizes =
      .ok ⟨some b, sizes, stepList sizes⟩ := by
    show (if validSize sizes = false then (.error .invalidArgument : Except Err View)
        else match reshapeWalk
            (condenseGroups ([sizeProd sizes].zip (stepList [sizeProd sizes])))
            sizes with
          | .error e => .error e
          | .ok newsteps => .ok ⟨some b, sizes, newsteps⟩) =
      .ok ⟨some b, sizes, stepList sizes⟩
    rw [hvalid2, if_neg (by simp), hgroups2, reshapeWalk_canonical sizes h2]
  show (reshape (⟨some b, sizes, stepList sizes⟩ : View) [sizeProd sizes]).bind
      (fun a => reshape a sizes) = .ok ⟨some b, sizes, stepList sizes⟩
  rw [hr1]
  exact hr2

/-- Witness for C6 at a concrete canonical view, sizes `{4,3,2}`. -/
theorem C6_witness :
    isContiguous ⟨some 0, [4, 3, 2], stepList [4, 3, 2]⟩ = true ∧
    isAligned ⟨some 0, [4, 3, 2], stepList [4, 3, 2]⟩ = true ∧
    (do
      let a ← reshape (⟨some 0, [4, 3, 2], stepList [4, 3, 2]⟩ : View)
        [sizeProd [4, 3, 2]]
      reshape a [4, 3, 2]) =
      .ok (⟨some 0, [4, 3, 2], stepList [4, 3, 2]⟩ : View) := by
  exact C6_reshape_roundtrip_canonical [4, 3, 2] 0 (by decide)
    (by intro x hx; simp at hx; omega)

/-- Index read for `median`'s pointer array (wilt-narray/narray.hpp:885-918).
The array of per-element pointers gathered by the initial `foreach` traversal
is modelled as the list of element values in canonical order: each pointer
targets a distinct cell whose value never changes, swapping pointers swaps list
entries, and `*ptrs[i]` is the entry at `i`.  Indices are C++ `int`s, so
`Int` here; a negative or past-the-end read (undefined behaviour in the source,
never exercised on valid runs) defaults to 0. -/
def getI (l : List Int) (i : Int) : Int :=
  if i < 0 then 0 else l.getD i.toNat 0

def setI (l : List Int) (i : Int) (v : Int) : List Int :=
  if i < 0 then l else l.set i.toNat v

/-- Embeds `std::swap(ptrs[a], ptrs[b])` on the modelled pointer array. -/
def swapI (l : List Int) (a b : Int) : List Int :=
  setI (setI l a (getI l b)) b (getI l a)

/-- Embeds `median`'s inner `while (*ptrs[a] < *x) ++a;` — fuelled, since the C++ loop
is bounded only by the pivot value being present. -/
def scanUp (l : List Int) (x : Int) : Nat → Int → Option Int
  | 0, _ => none
  | f + 1, a => if getI l a < x then scanUp l x f (a + 1) else some a

/-- Embeds `median`'s inner `while (*ptrs[b] > *x) --b;`. -/
def scanDown (l : List Int) (x : Int) : Nat → Int → Option Int
  | 0, _ => none
  | f + 1, b => if getI l b > x then scanDown l x f (b - 1) else some b

/-- Embeds `median`'s Hoare partition `while (true)` loop (wilt-narray/narray.hpp:
902-909): scan up, scan down, break when `a > b`, else swap and continue with
`a+1`, `b-1`.  Returns the permuted array and the final `a`, `b`. -/
def partLoop (x : Int) : Nat → List Int → Int → Int → Option (List Int × Int × Int)
  | 0, _, _, _ => none
  | f + 1, l, a, b =>
      match scanUp l x (l.length + 1) a, scanDown l x (l.length + 1) b with
      | some a', some b' =>
          if a' > b' then some (l, a', b')
          else partLoop x f (swapI l a' b') (a' + 1) (b' - 1)
      | _, _ => none

/-- Embeds `median`'s outer `while (A < B)` quickselect loop (wilt-narray/narray.hpp:
894-913) for the order statistic at index `n2 = n/2`: partition around the
value currently at index `n2`, then narrow `[A, B]`. -/
def selLoop (n2 : Int) : Nat → List Int → Int → Int → Option (List Int)
  | 0, _, _, _ => none
  | f + 1, l, A, B =>
      if A < B then
        match partLoop (getI l n2) (l.length + 1) l A B with
        | some (l', a, b) =>
            selLoop n2 f l' (if b < n2 then a else A) (if a > n2 then b else B)
        | none => none
      else some l

/-- Embeds `median(src)` (wilt-narray/narray.hpp:885-918): gather the elements in
canonical order, quickselect for index `n/2`, return that element. -/
def medianNA (l : List Int) : Option Int :=
  let n : Int := l.length
  (selLoop (n.tdiv 2) (l.length + 1) l 0 (n - 1)).map (fun r => getI r (n.tdiv 2))

/-- C9: `median` over the 4-element view `{1,3,2,4}` returns the order
statistic at index `n/2 = 2` of the sorted elements — the 3rd-smallest value,
3.  Confirmed by evaluating the embedded quickselect and comparing with the
sorted list. -/
theorem C9_median_even_length_scenario :
    medianNA [1, 3, 2, 4] = some 3 ∧
    (List.insertionSort (fun a b : Int => a ≤ b) [1, 3, 2, 4]).getD 2 0 = 3 := by
  exact ⟨rfl, rfl⟩

/-- Embeds `NArray::subarray` (src/wilt-narray/narray.hpp:1578-1590): per-axis bounds
checks, base advanced by `Σ steps[i]*loc[i]`, sizes replaced by `size`, steps
kept.  `loc` and `size` are `Point<N>`s, so they have exactly `N` entries; that
template arity is carried as hypotheses where needed. -/
def subarray (v : View) (loc size : List Int) : Except Err View :=
  if ((size.zip loc).zip v.sizes).all
      (fun p => decide (p.1.1 + p.1.2 ≤ p.2) && decide (0 < p.1.1) &&
        decide (0 ≤ p.1.2) && decide (p.1.2 < p.2))
  then .ok ⟨v.data.map (· + ((loc.zip v.steps).map (fun p => p.2 * p.1)).sum),
            size, v.steps⟩
  else .error .outOfRange

/-- Embeds `NArray::subarrayAt` (src/wilt-narray/narray.hpp:1592-1625): empty check,
per-axis bounds checks on the leading `M` axes, base advanced by
`Σ steps[i]*pos[i]`; the kept axes are the trailing `N-M` ones (`Point::low`
lives in the absent `util.hpp`; modelled from the spec's table: "trailing N−M
entries"). -/
def subarrayAt (v : View) (pos : List Int) : Except Err View :=
  if v.data.isNone then .error .runtimeError
  else if (pos.zip v.sizes).all (fun p => decide (0 ≤ p.1) && decide (p.1 < p.2))
  then .ok ⟨v.data.map (· + ((pos.zip v.steps).map (fun p => p.2 * p.1)).sum),
            v.sizes.drop pos.length, v.steps.drop pos.length⟩
  else .error .outOfRange

/-- Embeds `NArray::repeat` (src/wilt-narray/narray.hpp:1681-1693), named `repeatN`
since `repeat` is reserved: empty and positivity checks, then append size `n`
with step 0. -/
def repeatN (v : View) (n : Int) : Except Err View :=
  if v.data.isNone then .error .domainError
  else if n ≤ 0 then .error .invalidArgument
  else .ok ⟨v.data, v.sizes ++ [n], v.steps ++ [0]⟩

/-- Embeds `NArray::window_` (src/wilt-narray/narray.hpp:1748-1756): append size `n`
with the target axis's step, then shrink the target axis by `n-1`. -/
def window_ (v : View) (dim : Nat) (n : Int) : View :=
  ⟨v.data,
   (v.sizes ++ [n]).set dim ((v.sizes ++ [n]).getD dim 0 - (n - 1)),
   v.steps ++ [v.steps.getD dim 0]⟩

/-- Embeds `NArray::window` (src/wilt-narray/narray.hpp:1695-1704). -/
def window (v : View) (dim : Nat) (n : Int) : Except Err View :=
  if dim ≥ v.sizes.length then .error .outOfRange
  else if n < 1 ∨ n > v.sizes.getD dim 0 then .error .outOfRange
  else .ok (window_ v dim n)

/-- Embeds `NArray::asAligned` (src/wilt-narray/narray.hpp:1764-1776): an empty view
maps to the default (empty) view, otherwise apply `detail::align` and advance
the base by the returned offset. -/
def asAligned (v : View) : View :=
  match v.data with
  | none => ⟨none, v.sizes.map (fun _ => 0), v.steps.map (fun _ => 0)⟩
  | some b =>
      let r := align v.sizes v.steps
      ⟨some (b + r.2.2), r.1, r.2.1⟩

/-- Embeds `NArray::asCondensed` (src/wilt-narray/narray.hpp:1778-1789) with
`detail::condense`'s array layout (src/wilt-narray/narray.hpp:731-735): the
effective groups occupy the trailing positions, the unused leading positions
get size 1 and step `|sizes[j]*steps[j]|` of the leftmost group. -/
def asCondensed (v : View) : View :=
  match v.data with
  | none => ⟨none, v.sizes.map (fun _ => 0), v.steps.map (fun _ => 0)⟩
  | some b =>
      let g := condenseGroups (v.sizes.zip v.steps)
      let pad := v.sizes.length - g.length
      ⟨some b,
       List.replicate pad 1 ++ g.map Prod.fst,
       List.replicate pad |(g.headD (1, 1)).1 * (g.headD (1, 1)).2| ++
         g.map Prod.snd⟩

/-- Legacy `NArray::valid_` (wilt-narray/narray.hpp:1931-1940): scan the sizes
in order; a zero yields false (empty state), a negative throws — note a zero
*earlier* in the tuple wins over a later negative. -/
def Lvalid : List Int → Except Err Bool
  | [] => .ok true
  | x :: rest =>
      if x = 0 then .ok false
      else if x < 0 then .error .invalidArgument
      else Lvalid rest

/-- Legacy `NArray::NArray(const Point<N>& size)` (wilt-narray/narray.hpp:
939-950): `valid_()` decides between `create_()` (allocate, canonical steps)
and `clean_()` (no data, sizes and steps cleared to zero, base null —
modelled as offset 0). -/
def Lconstruct (size : List Int) : Except Err LView :=
  match Lvalid size with
  | .error e => .error e
  | .ok true => .ok ⟨true, 0, size, stepList size⟩
  | .ok false => .ok ⟨false, 0, size.map (fun _ => 0), size.map (fun _ => 0)⟩

/-- The views reachable through the current header's public API: the value
constructors, the default (empty) constructor, and the view-transformation
operations. -/
inductive Reachable : View → Prop where
  | construct {size : List Int} {v : View} :
      mkNArray size = .ok v → Reachable v
  | defaultView (n : Nat) :
      Reachable ⟨none, List.replicate n 0, List.replicate n 0⟩
  | index {v w : View} {n : Int} :
      Reachable v → opIndex v n = .ok w → Reachable w
  | sliceR {v w : View} {dim : Nat} {n : Int} :
      Reachable v → sliceOp v dim n = .ok w → Reachable w
  | rangeR {v w : View} {dim : Nat} {start length : Int} :
      Reachable v → range v dim start length = .ok w → Reachable w
  | flipR {v w : View} {dim : Nat} :
      Reachable v → flipOp v dim = .ok w → Reachable w
  | skipR {v w : View} {dim : Nat} {n start : Int} :
      Reachable v → skip v dim n start = .ok w → Reachable w
  | transposeR {v w : View} {d1 d2 : Nat} :
      Reachable v → transpose v d1 d2 = .ok w → Reachable w
  | subarrayR {v w : View} {loc size : List Int} :
      Reachable v → loc.length = v.sizes.length → size.length = v.sizes.length →
      subarray v loc size = .ok w → Reachable w
  | subarrayAtR {v w : View} {pos : List Int} :
      Reachable v → subarrayAt v pos = .ok w → Reachable w
  | repeatR {v w : View} {n : Int} :
      Reachable v → repeatN v n = .ok w → Reachable w
  | windowR {v w : View} {dim : Nat} {n : Int} :
      Reachable v → window v dim n = .ok w → Reachable w
  | reshapeR {v w : View} {ns : List Int} :
      Reachable v → reshape v ns = .ok w → Reachable w
  | asAlignedR {v : View} : Reachable v → Reachable (asAligned v)
  | asCondensedR {v : View} : Reachable v → Reachable (asCondensed v)

theorem validSize_iff (l : List Int) : validSize l = true ↔ ∀ x ∈ l, 0 < x := by
  simp [validSize, List.all_eq_true]

theorem allpos_eraseIdx {l : List Int} (h : ∀ x ∈ l, 0 < x) (d : Nat) :
    ∀ x ∈ l.eraseIdx d, 0 < x :=
  fun x hx => h x (List.eraseIdx_subset l d hx)

theorem allpos_set {l : List Int} (h : ∀ x ∈ l, 0 < x) {d : Nat} {val : Int}
    (hval : 0 < val) : ∀ x ∈ l.set d val, 0 < x := fun x hx =>
  (List.mem_or_eq_of_mem_set hx).elim (h x) (fun he => he ▸ hval)

theorem getD_pos {l : List Int} (h : ∀ x ∈ l, 0 < x) {d : Nat} (hd : d < l.length) :
    0 < l.getD d 0 := by
  rw [List.getD_eq_getElem l 0 hd]
  exact h _ (List.getElem_mem hd)

theorem allpos_swapped {l : List Int} (h : ∀ x ∈ l, 0 < x) {i j : Nat}
    (hi : i < l.length) (hj : j < l.length) : ∀ x ∈ swapped l i j, 0 < x := by
  rw [swapped]
  exact allpos_set (allpos_set h (getD_pos h hj)) (getD_pos h hi)

theorem tdiv_pos_of_le {a n : Int} (hn : 0 < n) (h : n ≤ a) : 0 < a.tdiv n := by
  rw [Int.tdiv_eq_ediv (by omega) (by omega)]
  have := (Int.le_ediv_iff_mul_le hn).mpr (by omega : 1 * n ≤ a)
  omega

theorem map_data_ne {o : Option Int} {f : Int → Int} (h : o.map f ≠ none) :
    o ≠ none := by
  intro hn
  rw [hn] at h
  exact h rfl

theorem subarray_all_pos : ∀ (size loc szs : List Int),
    size.length = szs.length → loc.length = szs.length →
    ((size.zip loc).zip szs).all
      (fun p => decide (p.1.1 + p.1.2 ≤ p.2) && decide (0 < p.1.1) &&
        decide (0 ≤ p.1.2) && decide (p.1.2 < p.2)) = true →
    ∀ x ∈ size, 0 < x := by
  intro size
  induction size with
  | nil =>
    intro loc szs _ _ _ x hx
    simp at hx
  | cons s srest ih =>
    intro loc szs hl1 hl2 hall x hx
    cases loc with
    | nil =>
      cases szs with
      | nil => simp at hl1
      | cons _ _ => simp at hl2
    | cons lo lrest =>
      cases szs with
      | nil => simp at hl1
      | cons sz szrest =>
        rw [List.zip_cons_cons, List.zip_cons_cons, List.all_cons] at hall
        simp only [Bool.and_eq_true, decide_eq_true_eq] at hall
        rcases List.mem_cons.mp hx with rfl | hx'
        · exact hall.1.1.1.2
        · exact ih lrest szrest (by simpa using hl1) (by simpa using hl2)
            (by simpa using hall.2) x hx'

theorem condenseGroups_fst_pos : ∀ (l : List (Int × Int)),
    (∀ p ∈ l, 0 < p.1) → ∀ g ∈ condenseGroups l, 0 < g.1 := by
  intro l
  induction l with
  | nil =>
    intro _ g hg
    simp [condenseGroups] at hg
  | cons p rest ih =>
    obtain ⟨sz, st⟩ := p
    intro hpos g hg
    have hsz : 0 < sz := hpos (sz, st) (by simp)
    have hrest : ∀ q ∈ rest, 0 < q.1 := fun q hq => hpos q (by simp [hq])
    rw [condenseGroups] at hg
    cases hm : condenseGroups rest with
    | nil =>
      rw [hm] at hg
      simp at hg
      simp [hg, hsz]
    | cons g0 gs =>
      obtain ⟨gsz, gst⟩ := g0
      rw [hm] at hg
      dsimp only at hg
      have hgsz : 0 < gsz := ih hrest (gsz, gst) (by rw [hm]; simp)
      by_cases hc : gst * gsz = st
      · rw [if_pos hc] at hg
        rcases List.mem_cons.mp hg with rfl | hg'
        · exact mul_pos hsz hgsz
        · exact ih hrest g (by rw [hm]; simp [hg'])
      · rw [if_neg hc] at hg
        rcases List.mem_cons.mp hg with rfl | hg'
        · exact hsz
        · exact ih hrest g (by rw [hm]; exact hg')

theorem mem_asAligned_sizes {v : View} {x : Int} (hne : v.data ≠ none)
    (hx : x ∈ (asAligned v).sizes) : x ∈ v.sizes := by
  obtain ⟨d, s, st⟩ := v
  cases d with
  | none => exact absurd rfl hne
  | some b =>
    have hsz : (asAligned ⟨some b, s, st⟩).sizes =
        (alignSortAux [] (alignNegateAux (s.zip st)).1).map Prod.fst := rfl
    rw [hsz] at hx
    obtain ⟨p, hp, rfl⟩ := List.mem_map.mp hx
    have hp' : p ∈ (alignNegateAux (s.zip st)).1 := by
      have := (alignSortAux_perm (alignNegateAux (s.zip st)).1 []).mem_iff.mp hp
      simpa using this
    rw [alignNegateAux_fst] at hp'
    obtain ⟨q, hq, hqe⟩ := List.mem_map.mp hp'
    have hq1 : p.1 = q.1 := by rw [← hqe]
    rw [hq1]
    exact (List.of_mem_zip hq).1

theorem asAligned_data_ne {v : View} (h : (asAligned v).data ≠ none) :
    v.data ≠ none := by
  obtain ⟨d, s, st⟩ := v
  cases d with
  | none => exact absurd rfl h
  | some b => simp

theorem asCondensed_data_ne {v : View} (h : (asCondensed v).data ≠ none) :
    v.data ≠ none := by
  obtain ⟨d, s, st⟩ := v
  cases d with
  | none => exact absurd rfl h
  | some b => simp

theorem mem_asCondensed_sizes_pos {v : View} (hpos : ∀ x ∈ v.sizes, 0 < x)
    {x : Int} (hne : v.data ≠ none) (hx : x ∈ (asCondensed v).sizes) : 0 < x := by
  obtain ⟨d, s, st⟩ := v
  cases d with
  | none => exact absurd rfl hne
  | some b =>
    have hsz : (asCondensed ⟨some b, s, st⟩).sizes =
        List.replicate (s.length - (condenseGroups (s.zip st)).length) 1 ++
          (condenseGroups (s.zip st)).map Prod.fst := rfl
    rw [hsz] at hx
    rcases List.mem_append.mp hx with hx' | hx'
    · have := List.eq_of_mem_replicate hx'
      omega
    · obtain ⟨p, hp, rfl⟩ := List.mem_map.mp hx'
      exact condenseGroups_fst_pos (s.zip st)
        (fun q hq => hpos q.1 (List.of_mem_zip hq).1) p hp

/-- Every view reachable through the public API is either empty or has all
sizes positive. -/
theorem reachable_sizes_pos {v : View} (h : Reachable v) :
    v.data ≠ none → ∀ x ∈ v.sizes, 0 < x := by
  induction h with
  | construct hok =>
    rw [mkNArray] at hok
    split_ifs at hok with hval
    simp only [Except.ok.injEq] at hok
    subst hok
    intro _
    exact (validSize_iff _).mp hval
  | defaultView n =>
    intro hne
    exact absurd rfl hne
  | index hr hok ih =>
    rw [opIndex] at hok
    split_ifs at hok with hc
    simp only [Except.ok.injEq] at hok
    subst hok
    intro hne x hx
    exact allpos_eraseIdx (ih (map_data_ne hne)) 0 x hx
  | sliceR hr hok ih =>
    rw [sliceOp] at hok
    split_ifs at hok with h1 h2
    simp only [Except.ok.injEq] at hok
    subst hok
    intro hne x hx
    exact allpos_eraseIdx (ih (map_data_ne hne)) _ x hx
  | rangeR hr hok ih =>
    rw [range] at hok
    split_ifs at hok with h1 h2 h3
    simp only [Except.ok.injEq] at hok
    subst hok
    intro hne x hx
    exact allpos_set (ih (map_data_ne hne)) (by omega) x hx
  | flipR hr hok ih =>
    rw [flipOp] at hok
    split_ifs at hok with h1
    simp only [Except.ok.injEq] at hok
    subst hok
    intro hne x hx
    exact ih (map_data_ne hne) x hx
  | skipR hr hok ih =>
    rw [skip] at hok
    split_ifs at hok with h1 h2 h3
    simp only [Except.ok.injEq] at hok
    subst hok
    intro hne x hx
    refine allpos_set (ih (map_data_ne hne)) ?_ x hx
    exact tdiv_pos_of_le (by omega) (by omega)
  | transposeR hr hok ih =>
    rw [transpose] at hok
    split_ifs at hok with h1 h2
    simp only [Except.ok.injEq] at hok
    subst hok
    intro hne x hx
    exact allpos_swapped (ih hne) (by omega) (by omega) x hx
  | subarrayR hr hloc hsize hok ih =>
    rw [subarray] at hok
    split_ifs at hok with hall
    simp only [Except.ok.injEq] at hok
    subst hok
    intro _ x hx
    exact subarray_all_pos _ _ _ hsize hloc hall x hx
  | subarrayAtR hr hok ih =>
    rename_i v w pos
    rw [subarrayAt] at hok
    split_ifs at hok with h1 h2
    simp only [Except.ok.injEq] at hok
    subst hok
    intro _ x hx
    have hvne : v.data ≠ none := by
      simpa [Option.isNone_iff_eq_none] using h1
    exact ih hvne x (List.drop_subset _ _ hx)
  | repeatR hr hok ih =>
    rename_i v w n
    rw [repeatN] at hok
    split_ifs at hok with h1 h2
    simp only [Except.ok.injEq] at hok
    subst hok
    intro hne x hx
    have hvne : v.data ≠ none := by
      simpa [Option.isNone_iff_eq_none] using h1
    rcases List.mem_append.mp hx with hx' | hx'
    · exact ih hvne x hx'
    · have : x = n := by simpa using hx'
      omega
  | windowR hr hok ih =>
    rename_i v w dim n
    rw [window] at hok
    split_ifs at hok with h1 h2
    simp only [Except.ok.injEq] at hok
    subst hok
    intro hne x hx
    have hvne : v.data ≠ none := hne
    have happ : ∀ y ∈ v.sizes ++ [n], 0 < y := by
      intro y hy
      rcases List.mem_append.mp hy with hy' | hy'
      · exact ih hvne y hy'
      · have : y = n := by simpa using hy'
        omega
    have hgd : (v.sizes ++ [n]).getD dim 0 = v.sizes.getD dim 0 :=
      List.getD_append _ _ _ _ (by omega)
    refine allpos_set happ ?_ x hx
    rw [hgd]
    omega
  | reshapeR hr hok ih =>
    rename_i v w ns
    obtain ⟨d, s, st⟩ := v
    cases d with
    | none => simp [reshape] at hok
    | some b =>
      simp only [reshape] at hok
      by_cases hval : validSize ns = false
      · rw [if_pos hval] at hok
        simp at hok
      · rw [if_neg hval] at hok
        cases hw : reshapeWalk (condenseGroups (s.zip st)) ns with
        | error e =>
          rw [hw] at hok
          simp at hok
        | ok nst =>
          rw [hw] at hok
          simp only [Except.ok.injEq] at hok
          subst hok
          intro _
          exact (validSize_iff ns).mp (by simpa using hval)
  | asAlignedR hr ih =>
    intro hne x hx
    have hvne := asAligned_data_ne hne
    exact ih hvne x (mem_asAligned_sizes hvne hx)
  | asCondensedR hr ih =>
    intro hne x hx
    have hvne := asCondensed_data_ne hne
    exact mem_asCondensed_sizes_pos (ih hvne) hvne hx

theorem Lvalid_ok_true_iff : ∀ (l : List Int),
    Lvalid l = .ok true ↔ ∀ x ∈ l, 0 < x := by
  intro l
  induction l with
  | nil => simp [Lvalid]
  | cons x rest ih =>
    by_cases hx0 : x = 0
    · rw [Lvalid, if_pos hx0]
      constructor
      · intro h
        simp at h
      · intro h
        exact absurd (h x (by simp)) (by omega)
    · by_cases hxneg : x < 0
      · rw [Lvalid, if_neg hx0, if_pos hxneg]
        constructor
        · intro h
          simp at h
        · intro h
          exact absurd (h x (by simp)) (by omega)
      · rw [Lvalid, if_neg hx0, if_neg hxneg, ih]
        constructor
        · intro h y hy
          rcases List.mem_cons.mp hy with rfl | hy'
          · omega
          · exact h y hy'
        · intro h y hy
          exact h y (by simp [hy])

theorem Lvalid_ok_false_iff : ∀ (l : List Int),
    Lvalid l = .ok false ↔ ∃ l1 l2, l = l1 ++ 0 :: l2 ∧ ∀ y ∈ l1, 0 < y := by
  intro l
  induction l with
  | nil =>
    simp only [Lvalid]
    constructor
    · intro h
      simp at h
    · rintro ⟨l1, l2, heq, _⟩
      exact absurd heq (by simp)
  | cons x rest ih =>
    by_cases hx0 : x = 0
    · subst hx0
      rw [Lvalid, if_pos rfl]
      constructor
      · intro _
        exact ⟨[], rest, by simp, by simp⟩
      · intro _
        rfl
    · by_cases hxneg : x < 0
      · rw [Lvalid, if_neg hx0, if_pos hxneg]
        constructor
        · intro h
          simp at h
        · rintro ⟨l1, l2, heq, hpos⟩
          cases l1 with
          | nil =>
            simp only [List.nil_append] at heq
            exact absurd (List.head_eq_of_cons_eq heq) hx0
          | cons a l1' =>
            rw [List.cons_append] at heq
            have ha : a = x := (List.head_eq_of_cons_eq heq).symm
            have := hpos a (by simp)
            omega
      · rw [Lvalid, if_neg hx0, if_neg hxneg, ih]
        constructor
        · rintro ⟨l1, l2, heq, hpos⟩
          refine ⟨x :: l1, l2, by rw [heq, List.cons_append], ?_⟩
          intro y hy
          rcases List.mem_cons.mp hy with rfl | hy'
          · omega
          · exact hpos y hy'
        · rintro ⟨l1, l2, heq, hpos⟩
          cases l1 with
          | nil =>
            simp only [List.nil_append] at heq
            exact absurd (List.head_eq_of_cons_eq heq) hx0
          | cons a l1' =>
            rw [List.cons_append] at heq
            refine ⟨l1', l2, List.tail_eq_of_cons_eq heq, ?_⟩
            intro y hy
            exact hpos y (by simp [hy])

theorem Lvalid_error_iff : ∀ (l : List Int),
    Lvalid l = .error .invalidArgument ↔
      ∃ l1 x l2, l = l1 ++ x :: l2 ∧ x < 0 ∧ ∀ y ∈ l1, 0 < y := by
  intro l
  induction l with
  | nil =>
    simp only [Lvalid]
    constructor
    · intro h
      simp at h
    · rintro ⟨l1, x, l2, heq, _, _⟩
      exact absurd heq (by simp)
  | cons a rest ih =>
    by_cases ha0 : a = 0
    · subst ha0
      rw [Lvalid, if_pos rfl]
      constructor
      · intro h
        simp at h
      · rintro ⟨l1, x, l2, heq, hneg, hpos⟩
        cases l1 with
        | nil =>
          simp only [List.nil_append] at heq
          have := (List.head_eq_of_cons_eq heq)
          omega
        | cons b l1' =>
          rw [List.cons_append] at heq
          have hb : b = 0 := (List.head_eq_of_cons_eq heq).symm
          have := hpos b (by simp)
          omega
    · by_cases haneg : a < 0
      · rw [Lvalid, if_neg ha0, if_pos haneg]
        constructor
        · intro _
          exact ⟨[], a, rest, by simp, haneg, by simp⟩
        · intro _
          rfl
      · rw [Lvalid, if_neg ha0, if_neg haneg, ih]
        constructor
        · rintro ⟨l1, x, l2, heq, hneg, hpos⟩
          refine ⟨a :: l1, x, l2, by rw [heq, List.cons_append], hneg, ?_⟩
          intro y hy
          rcases List.mem_cons.mp hy with rfl | hy'
          · omega
          · exact hpos y hy'
        · rintro ⟨l1, x, l2, heq, hneg, hpos⟩
          cases l1 with
          | nil =>
            simp only [List.nil_append] at heq
            have := (List.head_eq_of_cons_eq heq)
            omega
          | cons b l1' =>
            rw [List.cons_append] at heq
            refine ⟨l1', x, l2, List.tail_eq_of_cons_eq heq, hneg, ?_⟩
            intro y hy
            exact hpos y (by simp [hy])

/-- C4 (corrected): in the current header, constructing with *any*
`sizes[i] <= 0` — zero included — raises an invalid-argument error (it does not
yield the empty state), and a construction with all sizes positive succeeds; in
the legacy header `valid_` yields the empty state (sizes and steps cleared to
zero) exactly when the first non-positive entry in scan order is a zero, and
raises the error exactly when the first non-positive entry is negative (so a
zero earlier in the tuple masks a later negative size).  In the *current*
header, every view reachable through the public API is empty or has all sizes
positive; the legacy header does not maintain this invariant — its `skip`
(wilt-narray/narray.hpp:1514) never checks `start < sizes[dim]`, so
`skip(0, 2, 10)` on a fresh `{10}` view passes every check and returns a
non-empty view with size `(10-10+2-1)/2 = 0`. -/
theorem C4_construct_zero_and_negative :
    (∀ size : List Int, (∃ x ∈ size, x ≤ 0) →
        mkNArray size = .error .invalidArgument) ∧
    (∀ size : List Int, (∀ x ∈ size, 0 < x) →
        mkNArray size = .ok ⟨some 0, size, stepList size⟩) ∧
    (∀ size : List Int, Lvalid size = .ok true ↔ ∀ x ∈ size, 0 < x) ∧
    (∀ size : List Int, Lvalid size = .ok false ↔
        ∃ l1 l2, size = l1 ++ 0 :: l2 ∧ ∀ y ∈ l1, 0 < y) ∧
    (∀ size : List Int, Lvalid size = .error .invalidArgument ↔
        ∃ l1 x l2, size = l1 ++ x :: l2 ∧ x < 0 ∧ ∀ y ∈ l1, 0 < y) ∧
    (∀ (size l1 l2 : List Int), size = l1 ++ (0 : Int) :: l2 → (∀ y ∈ l1, 0 < y) →
        Lconstruct size =
          .ok ⟨false, 0, size.map (fun _ => 0), size.map (fun _ => 0)⟩) ∧
    (∀ v : View, Reachable v → v.data ≠ none → ∀ x ∈ v.sizes, 0 < x) ∧
    Lskip ⟨true, 0, [10], [1]⟩ 0 2 10 = .ok ⟨true, 2, [0], [2]⟩ := by
  refine ⟨?_, ?_, Lvalid_ok_true_iff, Lvalid_ok_false_iff, Lvalid_error_iff, ?_, ?_,
    rfl⟩
  · intro size h
    have hval : ¬ validSize size = true := by
      rw [validSize_iff]
      push_neg
      obtain ⟨x, hx, hle⟩ := h
      exact ⟨x, hx, by omega⟩
    rw [mkNArray, if_neg (by simpa using hval)]
  · intro size h
    rw [mkNArray, if_pos ((validSize_iff size).mpr h)]
  · intro size l1 l2 heq hpos
    have hfalse : Lvalid size = .ok false :=
      (Lvalid_ok_false_iff size).mpr ⟨l1, l2, heq, hpos⟩
    rw [Lconstruct, hfalse]
  · intro v hr
    exact reachable_sizes_pos hr

/-- Witness for C4 at concrete inputs: `{0,2}` errors (current header), all-
positive `{2,3}` succeeds, and a freshly constructed `{2,3}` view — reachable —
has positive sizes; the legacy `{2,0,-1}` construction yields the cleared empty
state. -/
theorem C4_witness :
    mkNArray [0, 2] = .error .invalidArgument ∧
    mkNArray [2, 3] = .ok ⟨some 0, [2, 3], stepList [2, 3]⟩ ∧
    Lconstruct [2, 0, -1] = .ok ⟨false, 0, [0, 0, 0], [0, 0, 0]⟩ ∧
    (∀ x ∈ ([2, 3] : List Int), 0 < x) := by
  refine ⟨?_, ?_, ?_, ?_⟩
  · exact C4_construct_zero_and_negative.1 [0, 2] ⟨0, by simp, by omega⟩
  · exact C4_construct_zero_and_negative.2.1 [2, 3]
      (by intro x hx; simp at hx; omega)
  · have := C4_construct_zero_and_negative.2.2.2.2.2.1 [2, 0, -1] [2] [-1]
      (by simp) (by intro y hy; simp at hy; omega)
    simpa using this
  · have hok : mkNArray [2, 3] = .ok ⟨some 0, [2, 3], stepList [2, 3]⟩ :=
      C4_construct_zero_and_negative.2.1 [2, 3] (by intro x hx; simp at hx; omega)
    have := C4_construct_zero_and_negative.2.2.2.2.2.2.1
      ⟨some 0, [2, 3], stepList [2, 3]⟩ (Reachable.construct hok) (by simp)
    exact this

/-- C4 counterexample: the current header's constructor on sizes `{0,2}`
throws `invalid_argument` instead of yielding the empty state; the legacy
constructor on sizes `{0,-1}` yields the empty state without raising an error
for the negative size (the zero is seen first); and the legacy header violates
the "every reachable non-empty view has all sizes positive" consequence:
`skip(0, 2, 10)` on a fresh `{10}` view (its `skip` never checks
`start < sizes[dim]`) returns a non-empty view with size 0. -/
theorem C4_counterexample :
    mkNArray [0, 2] = .error .invalidArgument ∧
    Lconstruct [0, -1] = .ok ⟨false, 0, [0, 0], [0, 0]⟩ ∧
    Lskip ⟨true, 0, [10], [1]⟩ 0 2 10 = .ok ⟨true, 2, [0], [2]⟩ ∧
    ¬ (0 < (0 : Int)) := by
  exact ⟨rfl, rfl, rfl, by omega⟩
